import Mathlib

/-!
# Verification of the Fp61 finite-field engine

Shallow embedding of the Fp61 library (arithmetic modulo the Mersenne prime
p = 2^61 - 1, plus its byte/word codecs and PRNG), translated from
`fp61.h` / `fp61.cpp`.  Machine words (`uint64_t`) are modelled as `Nat`
with explicit `% 2 ^ 64` wherever the C code can wrap; `int` fields are
modelled as `Int`; `unsigned` fields as `Nat` with explicit 32-bit
conversions where the code mixes signed and unsigned arithmetic.
-/

namespace fp61

/-- p = 2^61 - 1 (`kPrime` in fp61.h). -/
def kPrime : Nat := 2 ^ 61 - 1

/-- Mask where bit 63 is clear and all other bits are set (`kMask63`). -/
def kMask63 : Nat := 2 ^ 63 - 1

/-- `fp61::PartialReduce`: `(x & kPrime) + (x >> 61)`.
For a 64-bit input no intermediate can wrap (the sum is at most 2^61 + 6). -/
def PartialReduce (x : Nat) : Nat := (x &&& kPrime) + (x >>> 61)

/-- `fp61::Finalize`: `(x + ((x+1) >> 61)) & kPrime`.
Under the documented precondition (bits 63/62 clear) no intermediate wraps. -/
def Finalize (x : Nat) : Nat := (x + ((x + 1) >>> 61)) &&& kPrime

/-- `fp61::Multiply`: full 128-bit product split into `p_hi`/`p_lo`
(the `CAT_MUL128` native path), one PartialReduce-style fold of the low
word, high word folded in as `(p_hi << 3) & kMask63`, then `PartialReduce`.
The `<< 3` is a 64-bit shift, hence the `% 2 ^ 64`; the additions cannot
wrap (bounded by 2^61 + 6 + 2^63 - 1 < 2^64). -/
def Multiply (x y : Nat) : Nat :=
  let p_lo := x * y % 2 ^ 64
  let p_hi := x * y / 2 ^ 64
  PartialReduce ((p_lo &&& kPrime) + (p_lo >>> 61) + ((p_hi <<< 3) % 2 ^ 64 &&& kMask63))

/-! ## Arithmetic normal forms for the bit operations -/

theorem and_kPrime_eq (x : Nat) : x &&& kPrime = x % 2 ^ 61 := by
  unfold kPrime
  exact Nat.and_pow_two_sub_one_eq_mod x 61

theorem and_kMask63_eq (x : Nat) : x &&& kMask63 = x % 2 ^ 63 := by
  unfold kMask63
  exact Nat.and_pow_two_sub_one_eq_mod x 63

theorem PartialReduce_eq (x : Nat) : PartialReduce x = x % 2 ^ 61 + x / 2 ^ 61 := by
  unfold PartialReduce
  rw [and_kPrime_eq, Nat.shiftRight_eq_div_pow]

theorem Finalize_eq (x : Nat) : Finalize x = (x + (x + 1) / 2 ^ 61) % 2 ^ 61 := by
  unfold Finalize
  rw [and_kPrime_eq, Nat.shiftRight_eq_div_pow]

/-! ## FieldCore helper lemmas -/

theorem PartialReduce_lt (x : Nat) (hx : x < 2 ^ 64) : PartialReduce x < 2 ^ 62 := by
  rw [PartialReduce_eq]
  have h1 : x % 2 ^ 61 < 2 ^ 61 := Nat.mod_lt _ (by norm_num)
  have h2 : x / 2 ^ 61 < 8 := by omega
  omega

/-- The partial reduction never reaches 2^62 - 2 (in fact it is ≤ 2^61 + 6). -/
theorem PartialReduce_le (x : Nat) (hx : x < 2 ^ 64) : PartialReduce x ≤ 2 ^ 61 + 6 := by
  rw [PartialReduce_eq]
  have h1 : x % 2 ^ 61 < 2 ^ 61 := Nat.mod_lt _ (by norm_num)
  have h2 : x / 2 ^ 61 < 8 := by omega
  omega

theorem PartialReduce_modEq (x : Nat) : PartialReduce x ≡ x [MOD kPrime] := by
  rw [PartialReduce_eq]
  have hd := Nat.div_add_mod x (2 ^ 61)
  have hle : x % 2 ^ 61 + x / 2 ^ 61 ≤ x := by omega
  refine (Nat.modEq_iff_dvd' hle).mpr ⟨x / 2 ^ 61, ?_⟩
  unfold kPrime
  omega

theorem Finalize_lt (x : Nat) (hx : x < 2 ^ 62) (hne : x ≠ 2 ^ 62 - 2) :
    Finalize x < kPrime := by
  rw [Finalize_eq]
  unfold kPrime
  have h1 : (x + 1) / 2 ^ 61 = if x + 1 < 2 ^ 61 then 0 else if x + 1 < 2 ^ 62 then 1 else 2 := by
    split <;> rename_i h
    · omega
    · split <;> omega
  split at h1 <;> [skip; split at h1] <;> omega

theorem Finalize_modEq (x : Nat) (hx : x < 2 ^ 62) : Finalize x ≡ x [MOD kPrime] := by
  rw [Finalize_eq]
  unfold Nat.ModEq kPrime
  have h1 : (x + 1) / 2 ^ 61 = if x + 1 < 2 ^ 61 then 0 else if x + 1 < 2 ^ 62 then 1 else 2 := by
    split <;> rename_i h
    · omega
    · split <;> omega
  split at h1 <;> [skip; split at h1] <;> omega

/-- A finalized partial reduction is the canonical residue. -/
theorem Finalize_PartialReduce (x : Nat) (hx : x < 2 ^ 64) :
    Finalize (PartialReduce x) = x % kPrime := by
  have hlt := PartialReduce_lt x hx
  have hle := PartialReduce_le x hx
  have hne : PartialReduce x ≠ 2 ^ 62 - 2 := by omega
  have h1 := Finalize_lt _ hlt hne
  have h2 := (Finalize_modEq _ hlt).trans (PartialReduce_modEq x)
  unfold Nat.ModEq at h2
  rwa [Nat.mod_eq_of_lt h1] at h2

/-- Claim C4: for every 64-bit x, `PartialReduce x < 2^62` and
`PartialReduce x ≡ x (mod p)`; for every partially reduced y ≠ 2^62-2,
`Finalize y < p` and `Finalize y ≡ y (mod p)`; `PartialReduce` never outputs
the excluded value 2^62-2, so `Finalize (PartialReduce x)` is the canonical
residue of x mod p. -/
theorem lazy_reduction_pipeline (x : Nat) (hx : x < 2 ^ 64) :
    (PartialReduce x < 2 ^ 62 ∧ PartialReduce x ≡ x [MOD kPrime]) ∧
    (∀ y : Nat, y < 2 ^ 62 → y ≠ 2 ^ 62 - 2 →
      Finalize y < kPrime ∧ Finalize y ≡ y [MOD kPrime]) ∧
    (PartialReduce x ≠ 2 ^ 62 - 2 ∧ Finalize (PartialReduce x) = x % kPrime) := by
  refine ⟨⟨PartialReduce_lt x hx, PartialReduce_modEq x⟩,
    fun y hy hyne => ⟨Finalize_lt y hy hyne, Finalize_modEq y hy⟩,
    ?_, Finalize_PartialReduce x hx⟩
  have := PartialReduce_le x hx
  omega

/-- Witness for C4 at the concrete 64-bit input 2^63 + 5. -/
theorem lazy_reduction_pipeline_witness :
    2 ^ 63 + 5 < 2 ^ 64 ∧ Finalize (PartialReduce (2 ^ 63 + 5)) = (2 ^ 63 + 5) % kPrime :=
  ⟨by norm_num, ((lazy_reduction_pipeline (2 ^ 63 + 5) (by norm_num)).2.2).2⟩

/-! ## Multiply -/

theorem Multiply_norm (x y : Nat) (h : x * y / 2 ^ 64 < 2 ^ 60) :
    Multiply x y =
      PartialReduce (x * y % 2 ^ 64 % 2 ^ 61 + x * y % 2 ^ 64 / 2 ^ 61 + 8 * (x * y / 2 ^ 64)) := by
  unfold Multiply
  simp only [and_kPrime_eq, Nat.shiftRight_eq_div_pow, Nat.shiftLeft_eq, and_kMask63_eq]
  congr 1
  have h1 : x * y / 2 ^ 64 * 2 ^ 3 < 2 ^ 63 := by omega
  have h2 : x * y / 2 ^ 64 * 2 ^ 3 < 2 ^ 64 := lt_trans h1 (by norm_num)
  rw [Nat.mod_eq_of_lt h2, Nat.mod_eq_of_lt h1]
  ring

theorem Multiply_le (x y : Nat) (h : x * y / 2 ^ 64 < 2 ^ 60) :
    Multiply x y ≤ 2 ^ 61 + 6 := by
  rw [Multiply_norm x y h]
  apply PartialReduce_le
  have h1 : x * y % 2 ^ 64 % 2 ^ 61 < 2 ^ 61 := Nat.mod_lt _ (by norm_num)
  have h2 : x * y % 2 ^ 64 / 2 ^ 61 < 8 := by
    have := Nat.mod_lt (x * y) (show 0 < 2 ^ 64 by norm_num)
    omega
  omega

theorem Multiply_modEq (x y : Nat) (h : x * y / 2 ^ 64 < 2 ^ 60) :
    Multiply x y ≡ x * y [MOD kPrime] := by
  rw [Multiply_norm x y h]
  set L := x * y % 2 ^ 64 with hL
  set H := x * y / 2 ^ 64 with hH
  have hsplit : x * y = 2 ^ 64 * H + L := (Nat.div_add_mod (x * y) (2 ^ 64)).symm
  calc PartialReduce (L % 2 ^ 61 + L / 2 ^ 61 + 8 * H)
      ≡ L % 2 ^ 61 + L / 2 ^ 61 + 8 * H [MOD kPrime] := PartialReduce_modEq _
    _ ≡ L + 8 * H [MOD kPrime] := by
        have h1 : L % 2 ^ 61 + L / 2 ^ 61 ≡ L [MOD kPrime] := by
          have := PartialReduce_modEq L
          rwa [PartialReduce_eq] at this
        exact h1.add_right _
    _ ≡ x * y [MOD kPrime] := by
        have hle : L + 8 * H ≤ x * y := by omega
        refine (Nat.modEq_iff_dvd' hle).mpr ⟨8 * H, ?_⟩
        unfold kPrime
        omega

/-- Claim C5: for all 64-bit x, y with bitlength(x) + bitlength(y) ≤ 124,
`Multiply x y < 2^62` (partially reduced) and `Multiply x y ≡ x·y (mod p)`,
where x·y is the exact integer product. -/
theorem Multiply_correct (x y : Nat) (_hx : x < 2 ^ 64) (_hy : y < 2 ^ 64)
    (hbits : Nat.size x + Nat.size y ≤ 124) :
    Multiply x y < 2 ^ 62 ∧ Multiply x y ≡ x * y [MOD kPrime] := by
  have hxy : x * y < 2 ^ 124 := by
    have h1 : x < 2 ^ Nat.size x := Nat.lt_size_self x
    have h2 : y < 2 ^ Nat.size y := Nat.lt_size_self y
    calc x * y < 2 ^ Nat.size x * 2 ^ Nat.size y := Nat.mul_lt_mul'' h1 h2
      _ = 2 ^ (Nat.size x + Nat.size y) := (pow_add 2 _ _).symm
      _ ≤ 2 ^ 124 := Nat.pow_le_pow_right (by norm_num) hbits
  have hH : x * y / 2 ^ 64 < 2 ^ 60 := by omega
  refine ⟨?_, Multiply_modEq x y hH⟩
  have := Multiply_le x y hH
  omega

/-- Witness for C5 at x = 3, y = 5. -/
theorem Multiply_correct_witness :
    3 < 2 ^ 64 ∧ Nat.size 3 + Nat.size 5 ≤ 124 ∧
      (Multiply 3 5 < 2 ^ 62 ∧ Multiply 3 5 ≡ 3 * 5 [MOD kPrime]) :=
  have hs : Nat.size 3 + Nat.size 5 ≤ 124 :=
    le_trans (Nat.add_le_add (Nat.size_le.mpr (by norm_num)) (Nat.size_le.mpr (by norm_num)))
      (by norm_num : 2 + 3 ≤ 124)
  ⟨by norm_num, hs, Multiply_correct 3 5 (by norm_num) (by norm_num) hs⟩

/-! ## Inverse (unrolled Knuth unsigned eGCD from fp61.cpp) -/

theorem kPrime_prime : Nat.Prime kPrime := by
  have h : (mersenne 61).Prime := lucas_lehmer_sufficiency 61 (by norm_num) (by norm_num)
  exact h

theorem kPrime_lt64 : kPrime < 2 ^ 64 := by unfold kPrime; norm_num

theorem one_lt_kPrime : 1 < kPrime := by unfold kPrime; norm_num

/-- The `for (;;)` loop of `fp61::Inverse`.  State `(u1, u3, v1, v3)`;
`u1 += qt * v1` and `v1 += qt * u1` are 64-bit additions (hence `% 2 ^ 64`,
though the loop invariant keeps every quantity below p), and `kPrime - v1`
is a 64-bit subtraction. -/
def inverseLoop (u1 u3 v1 v3 : Nat) : Nat :=
  if hv : v3 = 0 then (if u3 = 1 then u1 else 0)
  else if hu : u3 % v3 = 0 then (if v3 = 1 then (2 ^ 64 + kPrime - v1) % 2 ^ 64 else 0)
  else
    inverseLoop ((u1 + u3 / v3 * v1) % 2 ^ 64) (u3 % v3)
      ((v1 + v3 / (u3 % v3) * ((u1 + u3 / v3 * v1) % 2 ^ 64)) % 2 ^ 64) (v3 % (u3 % v3))
termination_by v3
decreasing_by
  have h1 : u3 % v3 < v3 := Nat.mod_lt _ (Nat.pos_of_ne_zero hv)
  have h2 : v3 % (u3 % v3) < u3 % v3 := Nat.mod_lt _ (Nat.pos_of_ne_zero hu)
  omega

/-- `fp61::Inverse`: reduce the input mod p, return 0 if the residue is 0,
else run the unrolled eGCD loop seeded with `u1 = 1`, `v1 = kPrime / u3`,
`v3 = kPrime % u3`. -/
def Inverse (u : Nat) : Nat :=
  let u3 := u % kPrime
  if u3 = 0 then 0
  else inverseLoop 1 u3 (kPrime / u3) (kPrime % u3)

/-- Main loop invariant argument: Bezout-style congruences plus the exact
continuant identity `u1*v3 + v1*u3 = p` give correctness, the (0,p) range,
and absence of 64-bit wrap. -/
theorem inverseLoop_correct : ∀ v3 u1 u3 v1 : Nat, ∀ x : ZMod kPrime,
    0 < u3 → 0 < u1 → 0 < v1 → u1 < kPrime →
    u1 * v3 + v1 * u3 = kPrime →
    Nat.gcd v3 u3 = 1 →
    (u1 : ZMod kPrime) * x = (u3 : ZMod kPrime) →
    (v1 : ZMod kPrime) * x = -(v3 : ZMod kPrime) →
    0 < inverseLoop u1 u3 v1 v3 ∧ inverseLoop u1 u3 v1 v3 < kPrime ∧
      (inverseLoop u1 u3 v1 v3 : ZMod kPrime) * x = 1 := by
  intro v3
  induction v3 using Nat.strong_induction_on with
  | _ v3 IH =>
    intro u1 u3 v1 x hu3 hu1 hv1 hu1p hE hgcd h1 h2
    rw [inverseLoop]
    by_cases hv : v3 = 0
    · -- top-of-loop exit: v3 = 0 forces u3 = gcd = 1, return u1
      have hu31 : u3 = 1 := by rw [hv] at hgcd; simpa using hgcd
      rw [dif_pos hv, if_pos hu31]
      refine ⟨hu1, hu1p, ?_⟩
      rw [h1, hu31]
      exact Nat.cast_one
    · rw [dif_neg hv]
      by_cases hu : u3 % v3 = 0
      · -- mid-loop exit: u3 % v3 = 0 forces v3 = gcd = 1, return p - v1
        have hv31 : v3 = 1 := by
          have h := Nat.gcd_rec v3 u3
          rw [hu] at h
          simpa [h] using hgcd
        subst hv31
        rw [dif_pos hu, if_pos rfl]
        have hv1le : v1 ≤ kPrime := by
          have h := Nat.le_mul_of_pos_right v1 hu3
          omega
        have hv1lt : v1 < kPrime := by
          have h := Nat.le_mul_of_pos_right v1 hu3
          omega
        have hval : (2 ^ 64 + kPrime - v1) % 2 ^ 64 = kPrime - v1 := by
          have := kPrime_lt64
          omega
        rw [hval]
        refine ⟨by omega, by omega, ?_⟩
        rw [Nat.cast_sub hv1le, ZMod.natCast_self]
        have h2' : (v1 : ZMod kPrime) * x = -1 := by
          rw [h2]
          norm_num
        linear_combination -h2'
      · -- recursive case
        rw [dif_neg hu]
        set qt := u3 / v3 with hqt
        set r3 := u3 % v3 with hr3
        have hdm : v3 * qt + r3 = u3 := Nat.div_add_mod u3 v3
        have E1 : (u1 + qt * v1) * v3 + v1 * r3 = kPrime := by
          have h : (u1 + qt * v1) * v3 + v1 * r3 = u1 * v3 + v1 * (v3 * qt + r3) := by ring
          rw [h, hdm, hE]
        have hv3pos : 0 < v3 := Nat.pos_of_ne_zero hv
        have hr3pos : 0 < r3 := Nat.pos_of_ne_zero hu
        have hu1n_le : u1 + qt * v1 ≤ kPrime := by
          have h := Nat.le_mul_of_pos_right (u1 + qt * v1) hv3pos
          omega
        have hm1 : (u1 + qt * v1) % 2 ^ 64 = u1 + qt * v1 :=
          Nat.mod_eq_of_lt (lt_of_le_of_lt hu1n_le kPrime_lt64)
        rw [hm1]
        set u1n := u1 + qt * v1 with hu1n
        set qtn := v3 / r3 with hqtn
        set v3n := v3 % r3 with hv3n
        have hdm2 : r3 * qtn + v3n = v3 := Nat.div_add_mod v3 r3
        have E2 : u1n * v3n + (v1 + qtn * u1n) * r3 = kPrime := by
          have h : u1n * v3n + (v1 + qtn * u1n) * r3 = u1n * (r3 * qtn + v3n) + v1 * r3 := by
            ring
          rw [h, hdm2, E1]
        have hv1n_le : v1 + qtn * u1n ≤ kPrime := by
          have h := Nat.le_mul_of_pos_right (v1 + qtn * u1n) hr3pos
          omega
        have hm2 : (v1 + qtn * u1n) % 2 ^ 64 = v1 + qtn * u1n :=
          Nat.mod_eq_of_lt (lt_of_le_of_lt hv1n_le kPrime_lt64)
        rw [hm2]
        set v1n := v1 + qtn * u1n with hv1n
        -- new congruences
        have hcast1 : (v3 : ZMod kPrime) * qt + r3 = (u3 : ZMod kPrime) := by
          exact_mod_cast congrArg (fun n : ℕ => (n : ZMod kPrime)) hdm
        have hcast2 : (r3 : ZMod kPrime) * qtn + v3n = (v3 : ZMod kPrime) := by
          exact_mod_cast congrArg (fun n : ℕ => (n : ZMod kPrime)) hdm2
        have h1' : (u1n : ZMod kPrime) * x = (r3 : ZMod kPrime) := by
          have hc : (u1n : ZMod kPrime) = u1 + qt * v1 := by
            rw [hu1n]; push_cast; ring
          rw [hc]
          linear_combination h1 + (qt : ZMod kPrime) * h2 - hcast1
        have h2' : (v1n : ZMod kPrime) * x = -(v3n : ZMod kPrime) := by
          have hc : (v1n : ZMod kPrime) = v1 + qtn * u1n := by
            rw [hv1n]; push_cast; ring
          rw [hc]
          linear_combination h2 + (qtn : ZMod kPrime) * h1' + hcast2
        -- remaining numeric invariants
        have hu1n_pos : 0 < u1n := by omega
        have hv1n_pos : 0 < v1n := by omega
        have hu1n_lt : u1n < kPrime := by
          have h := Nat.le_mul_of_pos_right u1n hv3pos
          have h2 := Nat.le_mul_of_pos_right v1 hr3pos
          omega
        have hgcd' : Nat.gcd v3n r3 = 1 := by
          have ha : Nat.gcd v3 u3 = Nat.gcd r3 v3 := Nat.gcd_rec v3 u3
          have hb : Nat.gcd r3 v3 = Nat.gcd v3n r3 := Nat.gcd_rec r3 v3
          rw [← hb, ← ha, hgcd]
        have hdec : v3n < v3 := by
          have ha : r3 < v3 := Nat.mod_lt _ hv3pos
          have hb : v3n < r3 := Nat.mod_lt _ hr3pos
          omega
        exact IH v3n hdec u1n r3 v1n x hr3pos hu1n_pos hv1n_pos hu1n_lt E2 hgcd' h1' h2'

/-- Claim C6: for every 64-bit x, if x ≡ 0 (mod p) then `Inverse x = 0`;
otherwise `Inverse x` is strictly between 0 and p and
`Finalize (Multiply (PartialReduce x) (Inverse x)) = 1`. -/
theorem Inverse_correct (x : Nat) (hx : x < 2 ^ 64) :
    (x % kPrime = 0 → Inverse x = 0) ∧
    (x % kPrime ≠ 0 → 0 < Inverse x ∧ Inverse x < kPrime ∧
      Finalize (Multiply (PartialReduce x) (Inverse x)) = 1) := by
  constructor
  · intro h0
    unfold Inverse
    simp [h0]
  · intro hne
    have hu3pos : 0 < x % kPrime := Nat.pos_of_ne_zero hne
    have hu3lt : x % kPrime < kPrime := Nat.mod_lt _ (by unfold kPrime; norm_num)
    have hInv : Inverse x = inverseLoop 1 (x % kPrime) (kPrime / (x % kPrime))
        (kPrime % (x % kPrime)) := by
      unfold Inverse
      simp [hne]
    have hv1pos : 0 < kPrime / (x % kPrime) := Nat.div_pos (le_of_lt hu3lt) hu3pos
    have hE : 1 * (kPrime % (x % kPrime)) + kPrime / (x % kPrime) * (x % kPrime) = kPrime := by
      rw [one_mul]
      exact Nat.mod_add_div' kPrime (x % kPrime)
    have hgcd : Nat.gcd (kPrime % (x % kPrime)) (x % kPrime) = 1 := by
      have ha : Nat.gcd (x % kPrime) kPrime = Nat.gcd (kPrime % (x % kPrime)) (x % kPrime) :=
        Nat.gcd_rec _ _
      rw [← ha, Nat.gcd_comm]
      refine (Nat.Prime.coprime_iff_not_dvd kPrime_prime).mpr fun hdvd => ?_
      have := Nat.le_of_dvd hu3pos hdvd
      omega
    have hX : ((x % kPrime : Nat) : ZMod kPrime) = (x : ZMod kPrime) := ZMod.natCast_mod x _
    have h1 : ((1 : Nat) : ZMod kPrime) * (x : ZMod kPrime) = ((x % kPrime : Nat) : ZMod kPrime) := by
      rw [Nat.cast_one, one_mul, hX]
    have hdm : (x % kPrime : ZMod kPrime) * (kPrime / (x % kPrime) : Nat) +
        ((kPrime % (x % kPrime) : Nat) : ZMod kPrime) = 0 := by
      have hc := congrArg (fun n : ℕ => (n : ZMod kPrime)) (Nat.div_add_mod kPrime (x % kPrime))
      push_cast at hc
      rw [ZMod.natCast_self] at hc
      exact_mod_cast hc
    have h2 : ((kPrime / (x % kPrime) : Nat) : ZMod kPrime) * (x : ZMod kPrime) =
        -((kPrime % (x % kPrime) : Nat) : ZMod kPrime) := by
      linear_combination hdm + ((kPrime / (x % kPrime) : Nat) : ZMod kPrime) * hX.symm
    obtain ⟨hpos, hlt, hmul⟩ := inverseLoop_correct (kPrime % (x % kPrime)) 1 (x % kPrime)
      (kPrime / (x % kPrime)) (x : ZMod kPrime) hu3pos (by norm_num) hv1pos one_lt_kPrime
      hE hgcd h1 h2
    rw [← hInv] at hpos hlt hmul
    refine ⟨hpos, hlt, ?_⟩
    -- chain through Multiply and Finalize
    have hxr : x * Inverse x ≡ 1 [MOD kPrime] := by
      have hc : ((x * Inverse x : Nat) : ZMod kPrime) = ((1 : Nat) : ZMod kPrime) := by
        push_cast
        calc (x : ZMod kPrime) * (Inverse x : ZMod kPrime)
            = (Inverse x : ZMod kPrime) * (x : ZMod kPrime) := by ring
          _ = 1 := hmul
      exact (ZMod.natCast_eq_natCast_iff _ _ _).mp hc
    have hPR : PartialReduce x < 2 ^ 62 := PartialReduce_lt x hx
    have hprod : PartialReduce x * Inverse x < 2 ^ 123 := by
      calc PartialReduce x * Inverse x < 2 ^ 62 * 2 ^ 61 :=
          Nat.mul_lt_mul'' hPR (lt_of_lt_of_le hlt (by unfold kPrime; norm_num))
        _ = 2 ^ 123 := by norm_num
    have hH : PartialReduce x * Inverse x / 2 ^ 64 < 2 ^ 60 := by omega
    have hm1 : Multiply (PartialReduce x) (Inverse x) ≡ x * Inverse x [MOD kPrime] :=
      (Multiply_modEq _ _ hH).trans ((PartialReduce_modEq x).mul_right _)
    have hmle : Multiply (PartialReduce x) (Inverse x) ≤ 2 ^ 61 + 6 := Multiply_le _ _ hH
    have hFfin : Finalize (Multiply (PartialReduce x) (Inverse x)) =
        Multiply (PartialReduce x) (Inverse x) % kPrime := by
      have hlt62 : Multiply (PartialReduce x) (Inverse x) < 2 ^ 62 := by omega
      have hne62 : Multiply (PartialReduce x) (Inverse x) ≠ 2 ^ 62 - 2 := by omega
      have hf1 := Finalize_lt _ hlt62 hne62
      have hf2 := Finalize_modEq _ hlt62
      unfold Nat.ModEq at hf2
      rwa [Nat.mod_eq_of_lt hf1] at hf2
    rw [hFfin]
    unfold Nat.ModEq at hm1 hxr
    rw [hm1, hxr, Nat.mod_eq_of_lt one_lt_kPrime]

/-- Witness for C6 at x = 2. -/
theorem Inverse_correct_witness :
    2 < 2 ^ 64 ∧ 2 % kPrime ≠ 0 ∧
      (0 < Inverse 2 ∧ Inverse 2 < kPrime ∧
        Finalize (Multiply (PartialReduce 2) (Inverse 2)) = 1) :=
  ⟨by norm_num, by unfold kPrime; norm_num,
    (Inverse_correct 2 (by norm_num)).2 (by unfold kPrime; norm_num)⟩

/-! ## Portable 64x64 to 128 multiply emulation -/

/-- `Emulate64x64to128` from fp61.h: schoolbook multiplication built from
four 32x32→64 partial products.  Returns `(r_hi, r_lo)`.  Each
`static_cast<uint32_t>` is `% 2 ^ 32`; the sums are 64-bit additions
(`% 2 ^ 64`); `middle << 32` is a 64-bit shift. -/
def Emulate64x64to128 (x y : Nat) : Nat × Nat :=
  let x0 := x % 2 ^ 32
  let x1 := (x >>> 32) % 2 ^ 32
  let y0 := y % 2 ^ 32
  let y1 := (y >>> 32) % 2 ^ 32
  let p11 := x1 * y1
  let p01 := x0 * y1
  let p10 := x1 * y0
  let p00 := x0 * y0
  let middle := (p10 + ((p00 >>> 32) % 2 ^ 32) + (p01 % 2 ^ 32)) % 2 ^ 64
  let r_hi := (p11 + ((middle >>> 32) % 2 ^ 32) + ((p01 >>> 32) % 2 ^ 32)) % 2 ^ 64
  let r_lo := ((middle <<< 32) % 2 ^ 64) ||| (p00 % 2 ^ 32)
  (r_hi, r_lo)

/-- `fp61::Multiply` built on the emulated 128-bit multiply (the
`CAT_MUL128` fallback branch) instead of the native one. -/
def MultiplyEmu (x y : Nat) : Nat :=
  let p := Emulate64x64to128 x y
  PartialReduce ((p.2 &&& kPrime) + (p.2 >>> 61) + ((p.1 <<< 3) % 2 ^ 64 &&& kMask63))

/-- Disjoint bitwise-or is addition: a multiple of `2 ^ k` or-ed with a
value below `2 ^ k`. -/
theorem mul_pow_lor_eq_add (a b k : Nat) (hb : b < 2 ^ k) :
    (a * 2 ^ k) ||| b = a * 2 ^ k + b := by
  apply Nat.eq_of_testBit_eq
  intro i
  have h1 : a * 2 ^ k + b = 2 ^ k * a + b := by ring
  have h2 : a * 2 ^ k = 2 ^ k * a + 0 := by ring
  rw [Nat.testBit_lor, h1, Nat.testBit_mul_pow_two_add a hb i, h2,
    Nat.testBit_mul_pow_two_add a (by positivity) i]
  by_cases hik : i < k
  · simp [hik, Nat.zero_testBit]
  · have hbz : b.testBit i = false :=
      Nat.testBit_lt_two_pow
        (lt_of_lt_of_le hb (Nat.pow_le_pow_right (by norm_num) (le_of_not_lt hik)))
    simp [hik, hbz]

/-- Arithmetic core of the schoolbook recombination. -/
theorem emulate_core (a b c d : Nat) :
    (b * d + (b * c + a * c / 2 ^ 32 + a * d % 2 ^ 32) / 2 ^ 32 + a * d / 2 ^ 32) * 2 ^ 64 +
      ((b * c + a * c / 2 ^ 32 + a * d % 2 ^ 32) % 2 ^ 32 * 2 ^ 32 + a * c % 2 ^ 32) =
    (2 ^ 32 * b + a) * (2 ^ 32 * d + c) := by
  have hrhs : (2 ^ 32 * b + a) * (2 ^ 32 * d + c) =
      2 ^ 64 * (b * d) + 2 ^ 32 * (b * c) + 2 ^ 32 * (a * d) + a * c := by ring
  rw [hrhs]
  omega

/-- The intermediate 64-bit sums of the emulation cannot wrap. -/
theorem emulate_no_overflow (a b c d : Nat) (ha : a < 2 ^ 32) (hb : b < 2 ^ 32)
    (hc : c < 2 ^ 32) (hd : d < 2 ^ 32) :
    b * c + a * c / 2 ^ 32 + a * d % 2 ^ 32 < 2 ^ 64 ∧
    b * d + (b * c + a * c / 2 ^ 32 + a * d % 2 ^ 32) / 2 ^ 32 + a * d / 2 ^ 32 < 2 ^ 64 := by
  have h1 : b * c ≤ (2 ^ 32 - 1) * (2 ^ 32 - 1) := Nat.mul_le_mul (by omega) (by omega)
  have h2 : b * d ≤ (2 ^ 32 - 1) * (2 ^ 32 - 1) := Nat.mul_le_mul (by omega) (by omega)
  have h3 : a * c ≤ (2 ^ 32 - 1) * (2 ^ 32 - 1) := Nat.mul_le_mul (by omega) (by omega)
  have h4 : a * d ≤ (2 ^ 32 - 1) * (2 ^ 32 - 1) := Nat.mul_le_mul (by omega) (by omega)
  omega

/-- The emulation computes the exact 128-bit product. -/
theorem Emulate64x64to128_eq (x y : Nat) (hx : x < 2 ^ 64) (hy : y < 2 ^ 64) :
    (Emulate64x64to128 x y).1 * 2 ^ 64 + (Emulate64x64to128 x y).2 = x * y := by
  have ha : x % 2 ^ 32 < 2 ^ 32 := Nat.mod_lt _ (by norm_num)
  have hb : x / 2 ^ 32 < 2 ^ 32 := by omega
  have hc : y % 2 ^ 32 < 2 ^ 32 := Nat.mod_lt _ (by norm_num)
  have hd : y / 2 ^ 32 < 2 ^ 32 := by omega
  unfold Emulate64x64to128
  simp only [Nat.shiftRight_eq_div_pow, Nat.shiftLeft_eq]
  rw [Nat.mod_eq_of_lt hb, Nat.mod_eq_of_lt hd]
  set a := x % 2 ^ 32 with hsa
  set b := x / 2 ^ 32 with hsb
  set c := y % 2 ^ 32 with hsc
  set d := y / 2 ^ 32 with hsd
  obtain ⟨hov1, hov2⟩ := emulate_no_overflow a b c d ha hb hc hd
  have hacd : a * c / 2 ^ 32 < 2 ^ 32 := by
    have : a * c < 2 ^ 32 * 2 ^ 32 := Nat.mul_lt_mul'' ha hc
    omega
  have hadd : a * d / 2 ^ 32 < 2 ^ 32 := by
    have : a * d < 2 ^ 32 * 2 ^ 32 := Nat.mul_lt_mul'' ha hd
    omega
  rw [Nat.mod_eq_of_lt hacd, Nat.mod_eq_of_lt hadd, Nat.mod_eq_of_lt hov1]
  set M := b * c + a * c / 2 ^ 32 + a * d % 2 ^ 32 with hM
  have hMd : M / 2 ^ 32 < 2 ^ 32 := by omega
  rw [Nat.mod_eq_of_lt hMd, Nat.mod_eq_of_lt hov2]
  have hsplit : (2 : Nat) ^ 64 = 2 ^ 32 * 2 ^ 32 := by norm_num
  rw [hsplit, Nat.mul_mod_mul_right, ← hsplit]
  rw [mul_pow_lor_eq_add _ _ 32 (Nat.mod_lt _ (by norm_num))]
  have hxx : x = 2 ^ 32 * b + a := by omega
  have hyy : y = 2 ^ 32 * d + c := by omega
  rw [hxx, hyy]
  exact emulate_core a b c d

/-- Claim C10: the portable schoolbook emulation of the wide multiply is
exact (`r_hi * 2^64 + r_lo = x * y`) with no intermediate 64-bit overflow,
hence `Multiply` computes the same result whether built on the native
128-bit multiply or on the emulation. -/
theorem Emulate64x64to128_correct (x y : Nat) (hx : x < 2 ^ 64) (hy : y < 2 ^ 64) :
    (Emulate64x64to128 x y).1 * 2 ^ 64 + (Emulate64x64to128 x y).2 = x * y ∧
    (x / 2 ^ 32) * (y % 2 ^ 32) + (x % 2 ^ 32) * (y % 2 ^ 32) / 2 ^ 32 +
      (x % 2 ^ 32) * (y / 2 ^ 32) % 2 ^ 32 < 2 ^ 64 ∧
    (x / 2 ^ 32) * (y / 2 ^ 32) +
      ((x / 2 ^ 32) * (y % 2 ^ 32) + (x % 2 ^ 32) * (y % 2 ^ 32) / 2 ^ 32 +
        (x % 2 ^ 32) * (y / 2 ^ 32) % 2 ^ 32) / 2 ^ 32 +
      (x % 2 ^ 32) * (y / 2 ^ 32) / 2 ^ 32 < 2 ^ 64 ∧
    MultiplyEmu x y = Multiply x y := by
  have ha : x % 2 ^ 32 < 2 ^ 32 := Nat.mod_lt _ (by norm_num)
  have hb : x / 2 ^ 32 < 2 ^ 32 := by omega
  have hc : y % 2 ^ 32 < 2 ^ 32 := Nat.mod_lt _ (by norm_num)
  have hd : y / 2 ^ 32 < 2 ^ 32 := by omega
  obtain ⟨hov1, hov2⟩ := emulate_no_overflow _ _ _ _ ha hb hc hd
  have heq := Emulate64x64to128_eq x y hx hy
  refine ⟨heq, hov1, hov2, ?_⟩
  have hlo : (Emulate64x64to128 x y).2 < 2 ^ 64 := by
    unfold Emulate64x64to128
    exact Nat.bitwise_lt_two_pow (Nat.mod_lt _ (by norm_num))
      (lt_trans (Nat.mod_lt _ (by norm_num)) (by norm_num))
  have hhi : (Emulate64x64to128 x y).1 = x * y / 2 ^ 64 := by omega
  have hlo2 : (Emulate64x64to128 x y).2 = x * y % 2 ^ 64 := by omega
  have hpair : Emulate64x64to128 x y = (x * y / 2 ^ 64, x * y % 2 ^ 64) := by
    rw [← hhi, ← hlo2]
  unfold MultiplyEmu
  rw [hpair]
  rfl

/-- Witness for C10 at x = 2^40 + 7, y = 2^50 + 3. -/
theorem Emulate64x64to128_correct_witness :
    2 ^ 40 + 7 < 2 ^ 64 ∧ 2 ^ 50 + 3 < 2 ^ 64 ∧
      MultiplyEmu (2 ^ 40 + 7) (2 ^ 50 + 3) = Multiply (2 ^ 40 + 7) (2 ^ 50 + 3) :=
  ⟨by norm_num, by norm_num,
    (Emulate64x64to128_correct (2 ^ 40 + 7) (2 ^ 50 + 3) (by norm_num) (by norm_num)).2.2.2⟩

/-! ## Random (xoshiro256+ with splitmix64-style seeding) -/

/-- The splitmix64-style mixer (`HashU64` in fp61.cpp); 64-bit arithmetic. -/
def HashU64 (x : Nat) : Nat :=
  let x1 := (x + 0x9e3779b97f4a7c15) % 2 ^ 64
  let z1 := ((x1 ^^^ (x1 >>> 30)) * 0xbf58476d1ce4e5b9) % 2 ^ 64
  let z2 := ((z1 ^^^ (z1 >>> 27)) * 0x94d049bb133111eb) % 2 ^ 64
  z2 ^^^ (z2 >>> 31)

/-- xoshiro256+ generator state (`uint64_t State[4]`). -/
structure Random where
  State0 : Nat
  State1 : Nat
  State2 : Nat
  State3 : Nat
deriving DecidableEq

/-- `Random::Seed`: fill the state by chaining `HashU64` from the seed. -/
def Random.Seed (x : Nat) : Random :=
  let h0 := HashU64 x
  let h1 := HashU64 h0
  let h2 := HashU64 h1
  let h3 := HashU64 h2
  ⟨h0, h1, h2, h3⟩

/-- `CAT_ROL64(x, bits)`: 64-bit rotate left. -/
def rol64 (x b : Nat) : Nat := ((x <<< b) % 2 ^ 64) ||| (x >>> (64 - b))

/-- `Random::Next`: one xoshiro256+ step, returning the drawn 64-bit value
and the updated state. -/
def Random.Next (r : Random) : Nat × Random :=
  let result := (r.State0 + r.State3) % 2 ^ 64
  let t := (r.State1 <<< 17) % 2 ^ 64
  let s2 := r.State2 ^^^ r.State0
  let s3 := r.State3 ^^^ r.State1
  let s1 := r.State1 ^^^ s2
  let s0 := r.State0 ^^^ s3
  let s2t := s2 ^^^ t
  let s3r := rol64 s3 45
  (result, ⟨s0, s1, s2t, s3r⟩)

/-- `Random::ConvertRandToFp`: take the top 61 bits, collapse the one value
that equals p down to p - 1. -/
def ConvertRandToFp (word : Nat) : Nat :=
  let w := word >>> 3
  w - ((w + 1) >>> 61)

/-- `Random::ConvertRandToNonzeroFp`: additionally map 0 to 1; the
`word - 1` is a 64-bit (wrapping) subtraction. -/
def ConvertRandToNonzeroFp (word : Nat) : Nat :=
  let w := ConvertRandToFp word
  w + (((w + 2 ^ 64 - 1) % 2 ^ 64) >>> 63)

/-- `Random::NextFp`. -/
def Random.NextFp (r : Random) : Nat × Random :=
  let n := r.Next
  (ConvertRandToFp n.1, n.2)

/-- `Random::NextNonzeroFp`. -/
def Random.NextNonzeroFp (r : Random) : Nat × Random :=
  let n := r.Next
  (ConvertRandToNonzeroFp n.1, n.2)

/-- The n-th output of repeated `Next()` calls from a given state. -/
def nextOutputs (r : Random) : Nat → Nat
  | 0 => r.Next.1
  | n + 1 => nextOutputs r.Next.2 n

theorem ConvertRandToFp_lt (word : Nat) (hw : word < 2 ^ 64) :
    ConvertRandToFp word < kPrime := by
  unfold ConvertRandToFp kPrime
  simp only [Nat.shiftRight_eq_div_pow]
  omega

theorem ConvertRandToNonzeroFp_bounds (word : Nat) (hw : word < 2 ^ 64) :
    0 < ConvertRandToNonzeroFp word ∧ ConvertRandToNonzeroFp word < kPrime := by
  have h := ConvertRandToFp_lt word hw
  unfold ConvertRandToNonzeroFp
  unfold kPrime at *
  simp only [Nat.shiftRight_eq_div_pow]
  omega

theorem Next_fst_lt (r : Random) : (r.Next).1 < 2 ^ 64 := by
  show (r.State0 + r.State3) % 2 ^ 64 < 2 ^ 64
  exact Nat.mod_lt _ (by norm_num)

/-- Claim C9: two Random instances seeded with the same 64-bit s produce
identical Next() sequences; and for every generator state NextFp() returns
a value in [0, p) and NextNonzeroFp() a value in [1, p). -/
theorem Random_contract :
    (∀ s t : Nat, s = t →
      ∀ n, nextOutputs (Random.Seed s) n = nextOutputs (Random.Seed t) n) ∧
    (∀ r : Random, (r.NextFp).1 < kPrime ∧
      0 < (r.NextNonzeroFp).1 ∧ (r.NextNonzeroFp).1 < kPrime) := by
  constructor
  · intro s t hst n
    rw [hst]
  · intro r
    have hw := Next_fst_lt r
    have h1 : (r.NextFp).1 = ConvertRandToFp (r.Next).1 := rfl
    have h2 : (r.NextNonzeroFp).1 = ConvertRandToNonzeroFp (r.Next).1 := rfl
    rw [h1, h2]
    exact ⟨ConvertRandToFp_lt _ hw, (ConvertRandToNonzeroFp_bounds _ hw).1,
      (ConvertRandToNonzeroFp_bounds _ hw).2⟩

/-- Witness for C9 at seed 5, output index 2. -/
theorem Random_contract_witness :
    (5 : Nat) = 5 ∧ nextOutputs (Random.Seed 5) 2 = nextOutputs (Random.Seed 5) 2 :=
  ⟨rfl, Random_contract.1 5 5 rfl 2⟩

/-! ## Byte order utilities -/

/-- Little-endian value of a byte list (first byte least significant). -/
def leNat : List Nat → Nat
  | [] => 0
  | b :: rest => b + 256 * leNat rest

/-- `ReadU64_LE`: read 8 bytes in little-endian byte order. -/
def ReadU64_LE (data : List Nat) : Nat := leNat (data.take 8)

/-- `ReadBytes_LE`: read 0..8 bytes in little-endian byte order; the switch
returns 0 for any other byte count. -/
def ReadBytes_LE (data : List Nat) (bytes : Nat) : Nat :=
  if bytes ≤ 8 then leNat (data.take bytes) else 0

/-- The bytes emitted by `WriteBytes_LE`/`WriteU64_LE`: the low `bytes`
little-endian bytes of `value`. -/
def toLEBytes : Nat → Nat → List Nat
  | _, 0 => []
  | v, n + 1 => v % 256 :: toLEBytes (v / 256) n

/-- `WriteBytes_LE`: writes 0..8 bytes (the switch writes nothing for a
count above 8). -/
def WriteBytes_LE (value bytes : Nat) : List Nat :=
  if bytes ≤ 8 then toLEBytes value bytes else []

theorem leNat_lt (l : List Nat) (h : ∀ b ∈ l, b < 256) :
    leNat l < 2 ^ (8 * l.length) := by
  induction l with
  | nil => simp [leNat]
  | cons b rest ih =>
    have hb : b < 256 := h b (by simp)
    have hr : leNat rest < 2 ^ (8 * rest.length) := ih fun x hx => h x (by simp [hx])
    have hp : (2 : Nat) ^ (8 * (b :: rest).length) = 256 * 2 ^ (8 * rest.length) := by
      have : 8 * (b :: rest).length = 8 + 8 * rest.length := by
        simp [List.length_cons]; ring
      rw [this, pow_add]
      norm_num
    rw [hp]
    show b + 256 * leNat rest < 256 * 2 ^ (8 * rest.length)
    omega

/-! ## ByteReader -/

/-- Modelled from the spec: the constant `kAmbiguity` used by
`ByteReader::ReadNext` in fp61.cpp is defined nowhere under src/.  The spec
says the two topmost raw values p-1 (=2^61-2) and p (=2^61-1) collide into
the single emitted placeholder A = p-1, so the threshold/placeholder
constant is p - 1 (this also matches the code comment "Insert bit 0 for
fffe and 1 for ffff"). -/
def kAmbiguity : Nat := kPrime - 1

/-- `kAmbiguityMask` from fp61.h: low 60 bits all set. -/
def kAmbiguityMask : Nat := 2 ^ 60 - 1

/-- `ByteReader` cursor.  The C `Available` field is a (signed) `int`. -/
structure ByteReader where
  Data : List Nat
  Workspace : Nat
  Available : Int
deriving DecidableEq

/-- `ByteReader::BeginRead`. -/
def ByteReader.BeginRead (data : List Nat) : ByteReader := ⟨data, 0, 0⟩

/-- Shared tail of `ByteReader::ReadNext`: the ambiguity escape applied to
the extracted chunk `r`. -/
def ByteReader.finishRead (data : List Nat) (workspace r : Nat) (nextAvailable : Int) :
    Option Nat × ByteReader :=
  if r ≥ kAmbiguity then
    (some kAmbiguity, ⟨data, (workspace <<< 1) ||| (r &&& 1), nextAvailable + 1⟩)
  else
    (some r, ⟨data, workspace, nextAvailable⟩)

/-- `ByteReader::ReadNext` (declared `Read` in fp61.h).  `none` models
`ReadResult::Empty` (the cursor is left untouched); otherwise the produced
word and updated cursor are returned. -/
def ByteReader.ReadNext (s : ByteReader) : Option Nat × ByteReader :=
  if s.Available ≥ 61 then
    ByteReader.finishRead s.Data (s.Workspace >>> 61) (s.Workspace &&& kPrime)
      (s.Available - 61)
  else if s.Data.length ≥ 8 then
    let word := ReadU64_LE s.Data
    ByteReader.finishRead (s.Data.drop 8) (word >>> (61 - s.Available.toNat))
      ((s.Workspace ||| ((word <<< s.Available.toNat) % 2 ^ 64)) &&& kPrime)
      (s.Available + 3)
  else if s.Data.length = 0 ∧ s.Available ≤ 0 then
    (none, s)
  else
    let word := ReadBytes_LE s.Data s.Data.length
    ByteReader.finishRead [] (word >>> (61 - s.Available.toNat))
      ((s.Workspace ||| ((word <<< s.Available.toNat) % 2 ^ 64)) &&& kPrime)
      (s.Available + 8 * (s.Data.length : Int) - 61)

/-- Repeated reads (fuel-bounded), collecting produced words until Empty. -/
def ByteReader.readAll : Nat → ByteReader → List Nat
  | 0, _ => []
  | fuel + 1, s =>
    match s.ReadNext with
    | (none, _) => []
    | (some v, s2) => v :: ByteReader.readAll fuel s2

theorem finishRead_fst (d : List Nat) (w r : Nat) (na : Int) :
    (ByteReader.finishRead d w r na).1 = some (if kAmbiguity ≤ r then kAmbiguity else r) := by
  unfold ByteReader.finishRead
  split <;> simp_all [ge_iff_le]

theorem readNext_none_iff (s : ByteReader) :
    (s.ReadNext).1 = none ↔ s.Data = [] ∧ s.Available ≤ 0 := by
  unfold ByteReader.ReadNext
  split_ifs with h1 h2 h3
  · simp only [finishRead_fst]
    constructor
    · intro h; cases h
    · rintro ⟨_, hav⟩; omega
  · simp only [finishRead_fst]
    constructor
    · intro h; cases h
    · rintro ⟨hd, _⟩
      rw [hd] at h2
      simp at h2
  · simpa using h3
  · simp only [finishRead_fst]
    constructor
    · intro h; cases h
    · rintro ⟨hd, hav⟩
      exact (h3 ⟨by simp [hd], hav⟩).elim

theorem readNext_none_state (s : ByteReader) (h : (s.ReadNext).1 = none) :
    (s.ReadNext).2 = s := by
  unfold ByteReader.ReadNext at *
  split_ifs at h ⊢ with h1 h2 h3
  · rw [finishRead_fst] at h; cases h
  · rw [finishRead_fst] at h; cases h
  · rfl
  · rw [finishRead_fst] at h; cases h

theorem finishRead_some_lt (d : List Nat) (w r : Nat) (na : Int) (v : Nat)
    (h : (ByteReader.finishRead d w r na).1 = some v) : v < kPrime := by
  rw [finishRead_fst] at h
  have hv : v = if kAmbiguity ≤ r then kAmbiguity else r := by
    cases h; rfl
  subst hv
  unfold kAmbiguity kPrime
  split <;> omega

theorem readNext_cases (s : ByteReader) :
    (s.ReadNext).1 = none ∨ ∃ d w r na, s.ReadNext = ByteReader.finishRead d w r na := by
  unfold ByteReader.ReadNext
  split_ifs
  · exact Or.inr ⟨_, _, _, _, rfl⟩
  · exact Or.inr ⟨_, _, _, _, rfl⟩
  · exact Or.inl rfl
  · exact Or.inr ⟨_, _, _, _, rfl⟩

theorem readNext_some_lt (s : ByteReader) (v : Nat) (h : (s.ReadNext).1 = some v) :
    v < kPrime := by
  rcases readNext_cases s with hc | ⟨d, w, r, na, hc⟩
  · rw [h] at hc; cases hc
  · rw [hc] at h
    exact finishRead_some_lt _ _ _ _ _ h

/-- Claim C3: for every cursor state (hence for every byte buffer and every
sequence of Read calls after BeginRead), a call that returns Success yields
a value strictly below p, and a call returns Empty exactly when both the
remaining byte span and the bit accumulator are exhausted — in which case
the cursor is left unchanged, so the stream stays Empty. -/
theorem ByteReader_read_contract (s : ByteReader) :
    ((s.ReadNext).1 = none ↔ s.Data = [] ∧ s.Available ≤ 0) ∧
    ((s.ReadNext).1 = none → (s.ReadNext).2 = s) ∧
    (∀ v, (s.ReadNext).1 = some v → v < kPrime) :=
  ⟨readNext_none_iff s, readNext_none_state s, fun v h => readNext_some_lt s v h⟩

/-- Witness for C3: a Success case (buffer [5]) and an Empty case. -/
theorem ByteReader_read_contract_witness :
    (((ByteReader.BeginRead [5]).ReadNext).1 = some 5 ∧ 5 < kPrime) ∧
    (((ByteReader.BeginRead []).ReadNext).1 = none ∧
      ((ByteReader.BeginRead []).ReadNext).2 = ByteReader.BeginRead []) :=
  ⟨⟨by decide, (ByteReader_read_contract (ByteReader.BeginRead [5])).2.2 5 (by decide)⟩,
    by decide, (ByteReader_read_contract (ByteReader.BeginRead [])).2.1 (by decide)⟩

/-! ## WordWriter / ByteWriter -/

/-- `WordWriter` cursor; `Data` models the bytes written so far (the span
`Data` .. `DataWritePtr` in C). -/
structure WordWriter where
  Data : List Nat
  Workspace : Nat
  Available : Nat
deriving DecidableEq

/-- `WordWriter::BeginWrite`. -/
def WordWriter.BeginWrite : WordWriter := ⟨[], 0, 0⟩

/-- `WordWriter::Write`: pack 61 bits into the accumulator; emit a 64-bit
word when full.  `word << available` is a 64-bit shift. -/
def WordWriter.Write (s : WordWriter) (word : Nat) : WordWriter :=
  let workspace := s.Workspace ||| ((word <<< s.Available) % 2 ^ 64)
  let available := s.Available + 61
  if available ≥ 64 then
    ⟨s.Data ++ toLEBytes workspace 8, word >>> (61 - (available - 64)), available - 64⟩
  else
    ⟨s.Data, workspace, available⟩

/-- `WordWriter::Flush`: drain the remaining bits, zero-padded to a whole
byte; returns the entire output byte sequence (whose length is the C
return value). -/
def WordWriter.Flush (s : WordWriter) : List Nat :=
  s.Data ++ WriteBytes_LE s.Workspace ((s.Available + 7) / 8)

/-- `WordWriter::BytesNeeded`. -/
def WordWriter.BytesNeeded (words : Nat) : Nat := (words * 61 + 7) / 8

/-- `ByteWriter`: a `WordWriter` plus the `Packed` flag (which the source
sets in `BeginWrite` and never reads). -/
structure ByteWriter where
  Writer : WordWriter
  Packed : Bool
deriving DecidableEq

/-- `ByteWriter::BeginWrite`. -/
def ByteWriter.BeginWrite : ByteWriter := ⟨WordWriter.BeginWrite, false⟩

/-- `ByteWriter::Write`: like `WordWriter::Write`, except a word equal to
`kAmbiguityMask` occupies only 60 bits. -/
def ByteWriter.Write (s : ByteWriter) (word : Nat) : ByteWriter :=
  let word_bits := if word = kAmbiguityMask then 60 else 61
  let workspace := s.Writer.Workspace ||| ((word <<< s.Writer.Available) % 2 ^ 64)
  let available := s.Writer.Available + word_bits
  if available ≥ 64 then
    ⟨⟨s.Writer.Data ++ toLEBytes workspace 8, word >>> (word_bits - (available - 64)),
      available - 64⟩, s.Packed⟩
  else
    ⟨⟨s.Writer.Data, workspace, available⟩, s.Packed⟩

/-- `ByteWriter::Flush`. -/
def ByteWriter.Flush (s : ByteWriter) : List Nat := s.Writer.Flush

/-- `ByteReader::MaxWords`. -/
def ByteReader.MaxWords (bytes : Nat) : Nat :=
  (bytes * 8 + bytes * 8 / 61 + 60) / 61

/-- Claim C1 (exhibit of the reader/writer mismatch): on the 8-byte buffer
[254,255,...,255] the reader produces [p-1, 14], and feeding those words
through ByteWriter and flushing yields 16 bytes whose 8th byte is 223, not
255 — the round trip does not reproduce the buffer (the snapshot reader
escapes on chunks ≥ p-1 with placeholder p-1, while ByteWriter::Write
undoes an escape only for words equal to kAmbiguityMask = 2^60-1). -/
theorem ByteCodec_roundTrip_failure :
    ByteReader.readAll 3 (ByteReader.BeginRead [254, 255, 255, 255, 255, 255, 255, 255]) =
      [kPrime - 1, 14] ∧
    ByteWriter.Flush (List.foldl ByteWriter.Write ByteWriter.BeginWrite
        (ByteReader.readAll 3 (ByteReader.BeginRead [254, 255, 255, 255, 255, 255, 255, 255]))) =
      [254, 255, 255, 255, 255, 255, 255, 223, 1, 0, 0, 0, 0, 0, 0, 0] ∧
    List.getD (ByteWriter.Flush (List.foldl ByteWriter.Write ByteWriter.BeginWrite
        (ByteReader.readAll 3 (ByteReader.BeginRead [254, 255, 255, 255, 255, 255, 255, 255]))))
      7 0 = 223 ∧
    List.getD [254, 255, 255, 255, 255, 255, 255, 255] 7 0 = 255 := by
  refine ⟨by decide, by decide, by decide, by decide⟩

/-- Claim C2 (exhibit): the buffer [254,255,...,255] (raw chunk 2^61-2 = p-1
followed by stream bits 111) decodes to the placeholder p-1 = kAmbiguity
followed by the word 14, whose lowest bit — the threaded discriminator —
is 0, exactly as the claim states; but re-encoding [p-1, 14] with
ByteWriter does not reproduce the 8 original bytes (plus zero padding),
because the writer's escape test compares against kAmbiguityMask, not
against the placeholder p-1 emitted by the reader. -/
theorem Ambiguity_escape_concrete :
    ByteReader.readAll 3 (ByteReader.BeginRead [254, 255, 255, 255, 255, 255, 255, 255]) =
      [kAmbiguity, 14] ∧
    kAmbiguity = kPrime - 1 ∧ (14 : Nat) &&& 1 = 0 ∧
    List.getD (ByteWriter.Flush
        (List.foldl ByteWriter.Write ByteWriter.BeginWrite [kAmbiguity, 14])) 7 0 = 223 ∧
    List.getD ([254, 255, 255, 255, 255, 255, 255, 255] ++ List.replicate 8 0) 7 0 = 255 := by
  refine ⟨by decide, by decide, by decide, by decide, by decide⟩

/-! ## WordReader -/

/-- Reinterpret a stored `unsigned` bit pattern as a C `int` value. -/
def uintToInt32 (n : Nat) : Int := if n < 2 ^ 31 then (n : Int) else (n : Int) - 2 ^ 32

/-- Store a C `int` value back into an `unsigned` field. -/
def intToUint32 (i : Int) : Nat := (i % 2 ^ 32).toNat

/-- `WordReader` cursor; the C `Available` field is `unsigned` but the
arithmetic inside `Read` happens on `int` locals. -/
structure WordReader where
  Data : List Nat
  Workspace : Nat
  Available : Nat
deriving DecidableEq

/-- `WordReader::BeginRead`. -/
def WordReader.BeginRead (data : List Nat) : WordReader := ⟨data, 0, 0⟩

/-- `WordReader::Read`.  Returns 0 (without touching the cursor) when no
data is left.  NOTE: unlike `ByteReader::ReadNext`, the refill paths do NOT
mask the extracted chunk with `kPrime` (`r = workspace | (word <<
available)` in fp61.cpp). -/
def WordReader.Read (s : WordReader) : Nat × WordReader :=
  let available : Int := uintToInt32 s.Available
  if available ≥ 61 then
    (s.Workspace &&& kPrime, ⟨s.Data, s.Workspace >>> 61, intToUint32 (available - 61)⟩)
  else if s.Data.length ≥ 8 then
    let word := ReadU64_LE s.Data
    (s.Workspace ||| ((word <<< available.toNat) % 2 ^ 64),
      ⟨s.Data.drop 8, word >>> (61 - available.toNat), intToUint32 (available + 3)⟩)
  else if s.Data.length = 0 ∧ available ≤ 0 then
    (0, s)
  else
    let word := ReadBytes_LE s.Data s.Data.length
    (s.Workspace ||| ((word <<< available.toNat) % 2 ^ 64),
      ⟨[], word >>> (61 - available.toNat),
        intToUint32 (available + 8 * (s.Data.length : Int) - 61)⟩)

/-- `WordReader::WordCount`. -/
def WordReader.WordCount (bytes : Nat) : Nat := bytes * 8 / 61

/-- Read `n` consecutive words. -/
def WordReader.readWords : Nat → WordReader → List Nat
  | 0, _ => []
  | n + 1, s =>
    let r := s.Read
    r.1 :: WordReader.readWords n r.2

/-- Claim C7 (exhibit): `WordCount` is `floor(bytes*8/61)` as claimed, but
the write-then-read round trip is not lossless in this snapshot: writing
the finalized words [0, 7] and reading 2 words back yields
[2^63 + 2^62 + 2^61, 7] — the first read leaks the next word's bits above
bit 60 because `WordReader::Read` omits the `& kPrime` mask that
`ByteReader::ReadNext` applies. -/
theorem WordCodec_roundTrip_failure :
    (∀ bytes : Nat, WordReader.WordCount bytes = bytes * 8 / 61) ∧
    WordWriter.Flush (List.foldl WordWriter.Write WordWriter.BeginWrite [0, 7]) =
      [0, 0, 0, 0, 0, 0, 0, 224, 0, 0, 0, 0, 0, 0, 0, 0] ∧
    WordReader.WordCount 16 = 2 ∧
    WordReader.readWords 2 (WordReader.BeginRead
        (WordWriter.Flush (List.foldl WordWriter.Write WordWriter.BeginWrite [0, 7]))) =
      [2 ^ 63 + 2 ^ 62 + 2 ^ 61, 7] ∧
    List.getD (WordReader.readWords 2 (WordReader.BeginRead
        (WordWriter.Flush (List.foldl WordWriter.Write WordWriter.BeginWrite [0, 7])))) 0 0 =
      2 ^ 63 + 2 ^ 62 + 2 ^ 61 ∧
    List.getD [0, 7] 0 0 = 0 := by
  refine ⟨fun _ => rfl, by decide, by decide, by decide, by decide, by decide⟩

/-! ## Cursor invariants (bit accumulator discipline) -/

theorem shiftRight_eq_zero_iff (w n : Nat) : w >>> n = 0 ↔ w < 2 ^ n := by
  rw [Nat.shiftRight_eq_div_pow]
  exact Nat.div_eq_zero_iff (by positivity)

theorem shiftRight_lt (w k t : Nat) (h : w < 2 ^ (k + t)) : w >>> k < 2 ^ t := by
  rw [Nat.shiftRight_eq_div_pow]
  rw [Nat.div_lt_iff_lt_mul (by positivity : (0:Nat) < 2 ^ k)]
  calc w < 2 ^ (k + t) := h
    _ = 2 ^ t * 2 ^ k := by rw [← pow_add, Nat.add_comm]

theorem toLEBytes_lt (n : Nat) : ∀ v, ∀ b ∈ toLEBytes v n, b < 256 := by
  induction n with
  | zero => intro v b hb; simp [toLEBytes] at hb
  | succ n ih =>
    intro v b hb
    simp only [toLEBytes, List.mem_cons] at hb
    rcases hb with h | h
    · subst h; exact Nat.mod_lt _ (by norm_num)
    · exact ih _ b h

/-- Reachable-state invariant of `ByteReader`: data bytes are below 256,
the signed bit count stays within [-60, 64], the accumulator bits at or
above max(Available, 0) are zero, and a negative count only occurs once
the byte span is exhausted. -/
def BRInv (s : ByteReader) : Prop :=
  (∀ b ∈ s.Data, b < 256) ∧ -60 ≤ s.Available ∧ s.Available ≤ 64 ∧
  s.Workspace >>> s.Available.toNat = 0 ∧ (s.Available < 0 → s.Data = [])

theorem BRInv_begin (data : List Nat) (h : ∀ b ∈ data, b < 256) :
    BRInv (ByteReader.BeginRead data) := by
  unfold BRInv ByteReader.BeginRead
  dsimp only
  refine ⟨h, by norm_num, by norm_num, rfl, fun hc => absurd hc (by norm_num)⟩

theorem BRInv_finishRead (d : List Nat) (w r : Nat) (na : Int)
    (hd : ∀ b ∈ d, b < 256)
    (h1 : -60 ≤ na) (h2 : na ≤ 63)
    (hw : w < 2 ^ na.toNat)
    (hneg : na < 0 → d = [])
    (hesc : kAmbiguity ≤ r → 0 ≤ na) :
    BRInv (ByteReader.finishRead d w r na).2 := by
  unfold ByteReader.finishRead
  split_ifs with hr
  · -- escape branch
    have hna0 : 0 ≤ na := hesc hr
    unfold BRInv
    dsimp only
    refine ⟨hd, by omega, by omega, ?_, fun hc => absurd hc (by omega)⟩
    rw [shiftRight_eq_zero_iff]
    have hb : r &&& 1 < 2 ^ 1 := lt_of_le_of_lt (Nat.and_le_right) (by norm_num)
    have hor : (w <<< 1) ||| (r &&& 1) = w * 2 ^ 1 + (r &&& 1) := by
      rw [Nat.shiftLeft_eq]
      exact mul_pow_lor_eq_add w _ 1 hb
    rw [hor]
    have ht : (na + 1).toNat = na.toNat + 1 := by omega
    rw [ht, pow_succ]
    have hb1 : r &&& 1 ≤ 1 := Nat.and_le_right
    omega
  · unfold BRInv
    dsimp only
    exact ⟨hd, h1, by omega, (shiftRight_eq_zero_iff _ _).mpr hw, hneg⟩

theorem BRInv_step (s : ByteReader) (h : BRInv s) : BRInv (s.ReadNext).2 := by
  obtain ⟨hbytes, hge, hle, hwsz, hneg⟩ := h
  rw [shiftRight_eq_zero_iff] at hwsz
  unfold ByteReader.ReadNext
  split_ifs with h1 h2 h3
  · -- enough bits already available
    apply BRInv_finishRead _ _ _ _ hbytes (by omega) (by omega) ?_ (fun hc => absurd hc (by omega))
      (fun _ => by omega)
    have ht : s.Available.toNat = 61 + (s.Available - 61).toNat := by omega
    rw [ht] at hwsz
    exact shiftRight_lt _ _ _ hwsz
  · -- read a full 64-bit word
    have hdn : s.Data ≠ [] := by
      intro hc
      rw [hc] at h2
      simp at h2
    have hav0 : 0 ≤ s.Available := by
      by_contra hc
      exact hdn (hneg (by omega))
    have hword : ReadU64_LE s.Data < 2 ^ 64 := by
      have hlen : (s.Data.take 8).length = 8 := by
        rw [List.length_take]
        omega
      have := leNat_lt (s.Data.take 8) (fun b hb => hbytes b (List.mem_of_mem_take hb))
      rw [hlen] at this
      exact this
    apply BRInv_finishRead _ _ _ _ (fun b hb => hbytes b (List.mem_of_mem_drop hb))
      (by omega) (by omega) ?_ (fun hc => absurd hc (by omega)) (fun _ => by omega)
    have ht : (s.Available + 3).toNat = s.Available.toNat + 3 := by omega
    rw [ht]
    apply shiftRight_lt
    have hsum : 61 - s.Available.toNat + (s.Available.toNat + 3) = 64 := by omega
    rw [hsum]
    exact hword
  · -- Empty: cursor untouched
    exact ⟨hbytes, hge, hle, (shiftRight_eq_zero_iff _ _).mpr hwsz, hneg⟩
  · -- partial tail read
    have hlen7 : s.Data.length ≤ 7 := by omega
    have hav0 : 0 ≤ s.Available := by
      rcases List.eq_nil_or_concat s.Data with hnil | _
      · have : ¬s.Available ≤ 0 := fun hc => h3 ⟨by simp [hnil], hc⟩
        omega
      · by_contra hc
        have := hneg (by omega)
        simp_all
    have havle : s.Available ≤ 60 := by omega
    have hword : ReadBytes_LE s.Data s.Data.length < 2 ^ (8 * s.Data.length) := by
      unfold ReadBytes_LE
      rw [if_pos (by omega), List.take_length]
      exact leNat_lt _ hbytes
    set t := s.Available.toNat with hts
    have htav : (s.Available : Int) = (t : Int) := by omega
    have hrbound : (s.Workspace |||
        ((ReadBytes_LE s.Data s.Data.length <<< t) % 2 ^ 64)) &&& kPrime <
        2 ^ (t + 8 * s.Data.length) := by
      apply lt_of_le_of_lt (Nat.and_le_left)
      apply Nat.bitwise_lt_two_pow
      · exact lt_of_lt_of_le hwsz (Nat.pow_le_pow_right (by norm_num) (by omega))
      · apply lt_of_le_of_lt (Nat.mod_le _ _)
        rw [Nat.shiftLeft_eq]
        calc ReadBytes_LE s.Data s.Data.length * 2 ^ t
            < 2 ^ (8 * s.Data.length) * 2 ^ t := by
              apply Nat.mul_lt_mul_of_lt_of_le hword (le_refl _) (by positivity)
          _ = 2 ^ (t + 8 * s.Data.length) := by rw [← pow_add, Nat.add_comm]
    apply BRInv_finishRead _ _ _ _ (by simp) (by omega) (by omega) ?_ (fun _ => rfl) ?_
    · -- workspace bound
      by_cases hcase : 61 ≤ t + 8 * s.Data.length
      · have ht2 : (s.Available + 8 * (s.Data.length : Int) - 61).toNat =
            t + 8 * s.Data.length - 61 := by omega
        rw [ht2]
        apply shiftRight_lt
        have hsum : 61 - t + (t + 8 * s.Data.length - 61) = 8 * s.Data.length := by omega
        rw [hsum]
        exact hword
      · have ht2 : (s.Available + 8 * (s.Data.length : Int) - 61).toNat = 0 := by omega
        have hz : ReadBytes_LE s.Data s.Data.length >>> (61 - t) = 0 := by
          rw [shiftRight_eq_zero_iff]
          exact lt_of_lt_of_le hword (Nat.pow_le_pow_right (by norm_num) (by omega))
        rw [ht2, pow_zero, hz]
        exact Nat.zero_lt_one
    · -- an escape forces a nonnegative next count
      intro hamb
      by_contra hc
      have hsmall : t + 8 * s.Data.length ≤ 60 := by omega
      have : (s.Workspace ||| ((ReadBytes_LE s.Data s.Data.length <<< t) % 2 ^ 64)) &&& kPrime
          < 2 ^ 60 :=
        lt_of_lt_of_le hrbound (Nat.pow_le_pow_right (by norm_num) hsmall)
      have hka : (2 : Nat) ^ 60 ≤ kAmbiguity := by unfold kAmbiguity kPrime; norm_num
      omega

/-- Writer accumulator invariant: output bytes are bytes, at most 63 bits
pending, and all accumulator bits at or above `Available` are zero. -/
def WWInv (s : WordWriter) : Prop :=
  (∀ b ∈ s.Data, b < 256) ∧ s.Available ≤ 63 ∧ s.Workspace >>> s.Available = 0

theorem WWInv_begin : WWInv WordWriter.BeginWrite := by
  unfold WWInv WordWriter.BeginWrite
  dsimp only
  exact ⟨by simp, by norm_num, rfl⟩

/-- Numeric core shared by the two writers: packing a `wb`-bit word at
offset `av` keeps the accumulator disciplined on both sides of a flush. -/
theorem pack_bounds (ws av word wb : Nat) (hav : av ≤ 63) (hws : ws < 2 ^ av)
    (hw : word < 2 ^ wb) :
    (av + wb < 64 → ws ||| ((word <<< av) % 2 ^ 64) < 2 ^ (av + wb)) ∧
    (64 ≤ av + wb → word >>> (wb - (av + wb - 64)) < 2 ^ (av + wb - 64)) := by
  constructor
  · intro hlt
    apply Nat.bitwise_lt_two_pow
    · exact lt_of_lt_of_le hws (Nat.pow_le_pow_right (by norm_num) (by omega))
    · apply lt_of_le_of_lt (Nat.mod_le _ _)
      rw [Nat.shiftLeft_eq]
      calc word * 2 ^ av < 2 ^ wb * 2 ^ av :=
          Nat.mul_lt_mul_of_lt_of_le hw (le_refl _) (by positivity)
        _ = 2 ^ (av + wb) := by rw [← pow_add, Nat.add_comm]
  · intro hge
    have hsh : wb - (av + wb - 64) = 64 - av := by omega
    rw [hsh]
    apply shiftRight_lt
    have hsum : 64 - av + (av + wb - 64) = wb := by omega
    rw [hsum]
    exact hw

theorem WWInv_write (s : WordWriter) (word : Nat) (h : WWInv s) (hw : word < 2 ^ 61) :
    WWInv (s.Write word) := by
  obtain ⟨hb, hav, hz⟩ := h
  rw [shiftRight_eq_zero_iff] at hz
  have hp := pack_bounds s.Workspace s.Available word 61 hav hz hw
  unfold WordWriter.Write
  dsimp only
  split_ifs with hcond
  · unfold WWInv
    dsimp only
    refine ⟨?_, by omega, ?_⟩
    · intro b hb2
      rcases List.mem_append.mp hb2 with hmem | hmem
      · exact hb b hmem
      · exact toLEBytes_lt 8 _ b hmem
    · rw [shiftRight_eq_zero_iff]
      exact hp.2 (by omega)
  · unfold WWInv
    dsimp only
    exact ⟨hb, by omega, (shiftRight_eq_zero_iff _ _).mpr (hp.1 (by omega))⟩

/-- ByteWriter invariant: its inner WordWriter is disciplined. -/
def BWInv (s : ByteWriter) : Prop := WWInv s.Writer

theorem BWInv_write (s : ByteWriter) (word : Nat) (h : BWInv s) (hw : word < 2 ^ 61) :
    BWInv (s.Write word) := by
  obtain ⟨hb, hav, hz⟩ := h
  rw [shiftRight_eq_zero_iff] at hz
  unfold ByteWriter.Write
  dsimp only
  by_cases hm : word = kAmbiguityMask
  · have hw60 : word < 2 ^ 60 := by
      rw [hm]; unfold kAmbiguityMask; norm_num
    have hp := pack_bounds s.Writer.Workspace s.Writer.Available word 60 hav hz hw60
    simp only [if_pos hm]
    split_ifs with hcond
    · unfold BWInv WWInv
      dsimp only
      refine ⟨?_, by omega, ?_⟩
      · intro b hb2
        rcases List.mem_append.mp hb2 with hmem | hmem
        · exact hb b hmem
        · exact toLEBytes_lt 8 _ b hmem
      · rw [shiftRight_eq_zero_iff]
        exact hp.2 (by omega)
    · unfold BWInv WWInv
      dsimp only
      exact ⟨hb, by omega, (shiftRight_eq_zero_iff _ _).mpr (hp.1 (by omega))⟩
  · have hp := pack_bounds s.Writer.Workspace s.Writer.Available word 61 hav hz hw
    simp only [if_neg hm]
    split_ifs with hcond
    · unfold BWInv WWInv
      dsimp only
      refine ⟨?_, by omega, ?_⟩
      · intro b hb2
        rcases List.mem_append.mp hb2 with hmem | hmem
        · exact hb b hmem
        · exact toLEBytes_lt 8 _ b hmem
      · rw [shiftRight_eq_zero_iff]
        exact hp.2 (by omega)
    · unfold BWInv WWInv
      dsimp only
      exact ⟨hb, by omega, (shiftRight_eq_zero_iff _ _).mpr (hp.1 (by omega))⟩

/-- WordReader invariant (holds while whole words remain to read). -/
def WRInv (s : WordReader) : Prop :=
  (∀ b ∈ s.Data, b < 256) ∧ s.Available ≤ 63 ∧ s.Workspace >>> s.Available = 0

theorem WRInv_begin (data : List Nat) (h : ∀ b ∈ data, b < 256) :
    WRInv (WordReader.BeginRead data) := by
  unfold WRInv WordReader.BeginRead
  dsimp only
  exact ⟨h, by norm_num, rfl⟩

theorem WRInv_read (s : WordReader) (h : WRInv s)
    (hrem : 61 ≤ s.Available + 8 * s.Data.length) :
    WRInv (s.Read).2 ∧
    (s.Read).2.Available + 8 * (s.Read).2.Data.length
      = s.Available + 8 * s.Data.length - 61 := by
  obtain ⟨hb, hav, hz⟩ := h
  rw [shiftRight_eq_zero_iff] at hz
  have hsm : uintToInt32 s.Available = (s.Available : Int) := by
    unfold uintToInt32
    rw [if_pos (by omega)]
  unfold WordReader.Read
  rw [hsm]
  by_cases c1 : (s.Available : Int) ≥ 61
  · -- enough bits already buffered
    have hc1 : 61 ≤ s.Available := by exact_mod_cast c1
    have he : intToUint32 ((s.Available : Int) - 61) = s.Available - 61 := by
      unfold intToUint32
      omega
    simp only [if_pos c1]
    unfold WRInv
    dsimp only
    rw [he]
    refine ⟨⟨hb, by omega, ?_⟩, by omega⟩
    rw [shiftRight_eq_zero_iff]
    have ht : s.Available = 61 + (s.Available - 61) := by omega
    rw [ht] at hz
    exact shiftRight_lt _ _ _ hz
  · simp only [if_neg c1]
    have hc1 : s.Available ≤ 60 := by omega
    have htn : ((s.Available : Int)).toNat = s.Available := by omega
    by_cases c2 : s.Data.length ≥ 8
    · -- refill from a full 64-bit word
      have hword : ReadU64_LE s.Data < 2 ^ 64 := by
        have hlen : (s.Data.take 8).length = 8 := by
          rw [List.length_take]
          omega
        have hlt := leNat_lt (s.Data.take 8) (fun b hbm => hb b (List.mem_of_mem_take hbm))
        rw [hlen] at hlt
        exact hlt
      have he : intToUint32 ((s.Available : Int) + 3) = s.Available + 3 := by
        unfold intToUint32
        omega
      simp only [if_pos c2]
      unfold WRInv
      dsimp only
      rw [he, htn, List.length_drop]
      refine ⟨⟨fun b hbm => hb b (List.mem_of_mem_drop hbm), by omega, ?_⟩, by omega⟩
      rw [shiftRight_eq_zero_iff]
      apply shiftRight_lt
      have hsum : 61 - s.Available + (s.Available + 3) = 64 := by omega
      rw [hsum]
      exact hword
    · simp only [if_neg c2]
      have hlen7 : s.Data.length ≤ 7 := by omega
      by_cases c3 : s.Data.length = 0 ∧ (s.Available : Int) ≤ 0
      · -- dead branch under the contract
        exfalso
        obtain ⟨hl0, hal⟩ := c3
        rw [hl0] at hrem
        have h61 : (61 : Int) ≤ (s.Available : Int) := by exact_mod_cast (by omega : 61 ≤ s.Available)
        omega
      · -- partial tail refill
        have hword : ReadBytes_LE s.Data s.Data.length < 2 ^ (8 * s.Data.length) := by
          unfold ReadBytes_LE
          rw [if_pos (by omega), List.take_length]
          exact leNat_lt _ hb
        have he : intToUint32 ((s.Available : Int) + 8 * (s.Data.length : Int) - 61) =
            s.Available + 8 * s.Data.length - 61 := by
          unfold intToUint32
          omega
        simp only [if_neg c3]
        unfold WRInv
        dsimp only
        rw [he, htn]
        simp only [List.length_nil, List.not_mem_nil]
        refine ⟨⟨by intro b hbm; exact absurd hbm (by simp), by omega, ?_⟩, by omega⟩
        rw [shiftRight_eq_zero_iff]
        apply shiftRight_lt
        have hsum : 61 - s.Available + (s.Available + 8 * s.Data.length - 61)
            = 8 * s.Data.length := by omega
        rw [hsum]
        exact hword

/-- C8 counterexample: after a single Read on the 1-byte buffer [0], the
ByteReader's bit count `Available` is -53, violating the claimed 0-63
range. -/
theorem Cursor_invariant_counterexample :
    ((ByteReader.BeginRead [0]).ReadNext).2.Available = -53 ∧
    ((ByteReader.BeginRead [0]).ReadNext).2.Available < 0 := by
  refine ⟨by decide, by decide⟩

/-- Claim C8 (amended): after Begin* and after every Read/Write call, every
cursor keeps all accumulator bits at or above the (clamped) bit count
zero, and the bit count stays in range: 0-63 for WordWriter and ByteWriter
(for words of at most 61 bits, as written by the codecs); -60..64 for
ByteReader, where a negative count (exhausted accumulator) occurs only
once the byte span is empty; and 0-63 for WordReader as long as at least
one whole 61-bit word remains to read (at most WordCount(bytes) reads),
each read consuming exactly 61 bits of the remaining total. -/
theorem Cursor_invariants_amended :
    (∀ data, (∀ b ∈ data, b < 256) → BRInv (ByteReader.BeginRead data)) ∧
    (∀ s : ByteReader, BRInv s → BRInv (s.ReadNext).2) ∧
    WWInv WordWriter.BeginWrite ∧
    (∀ (s : WordWriter) (word : Nat), WWInv s → word < 2 ^ 61 → WWInv (s.Write word)) ∧
    BWInv ByteWriter.BeginWrite ∧
    (∀ (s : ByteWriter) (word : Nat), BWInv s → word < 2 ^ 61 → BWInv (s.Write word)) ∧
    (∀ data, (∀ b ∈ data, b < 256) → WRInv (WordReader.BeginRead data)) ∧
    (∀ s : WordReader, WRInv s → 61 ≤ s.Available + 8 * s.Data.length →
      WRInv (s.Read).2 ∧
      (s.Read).2.Available + 8 * (s.Read).2.Data.length
        = s.Available + 8 * s.Data.length - 61) :=
  ⟨BRInv_begin, BRInv_step, WWInv_begin, WWInv_write, WWInv_begin, BWInv_write,
    WRInv_begin, WRInv_read⟩

/-- Witness for C8 at concrete cursors. -/
theorem Cursor_invariants_amended_witness :
    (∀ b ∈ [7], b < 256) ∧ BRInv ((ByteReader.BeginRead [7]).ReadNext).2 ∧
    (5 : Nat) < 2 ^ 61 ∧ WWInv (WordWriter.BeginWrite.Write 5) :=
  ⟨by decide,
    Cursor_invariants_amended.2.1 _ (Cursor_invariants_amended.1 [7] (by decide)),
    by norm_num,
    Cursor_invariants_amended.2.2.2.1 WordWriter.BeginWrite 5
      Cursor_invariants_amended.2.2.1 (by norm_num)⟩

end fp61
